import Mathlib

/-!
Verification of the upgrade planning and rollout orchestration engine of
cluster-api-operator (vendored clusterctl `ProviderUpgrader`, file
`cmd/clusterctl/client/cluster/upgrader.go`).

The Go code is shallowly embedded: external collaborators (the inventory
client, the metadata resolver, the components client, the proxy) become
function-valued fields of environment records, and the upgrader's own
functions (`Plan`, `createCustomPlan`, `doUpgrade`, `isPartialUpgrade`,
`getUpgradePlan`, ...) become Lean functions over those environments.
Effects performed by `doUpgrade` are recorded as an explicit action trace.
-/

/-- Provider type, per the data model: Core, Bootstrap, ControlPlane or
Infrastructure (`clusterctlv1.ProviderType`). -/
inductive ProviderType where
  | core
  | bootstrap
  | controlPlane
  | infrastructure
deriving DecidableEq, Repr

/-- Modelled from the spec: the fixed component-type precedence
Core < Bootstrap < ControlPlane < Infrastructure used as ordering key
(`ProviderType.Order()` is not among the provided sources). -/
def ProviderType.Order : ProviderType → Nat
  | .core => 0
  | .bootstrap => 1
  | .controlPlane => 2
  | .infrastructure => 3

/-- A provider record in the management cluster (`clusterctlv1.Provider`),
restricted to the fields the upgrader reads: type, name, namespace and the
currently installed version. `ns` stands for the Go `Namespace` field
(`namespace` is a Lean keyword). -/
structure Provider where
  pType : ProviderType
  name : String
  ns : String
  version : String
deriving DecidableEq, Repr

/-- Modelled from the spec: a component's identity reference, derived from
its namespace and name (`Provider.InstanceName()` is not among the provided
sources; upstream it renders the namespaced name). -/
def Provider.InstanceName (p : Provider) : String :=
  p.ns ++ "/" ++ p.name

/-- `UpgradeItem` defines a possible upgrade target for a provider in the
management cluster: the provider record plus the next version (empty string
when there is no version to upgrade to). -/
structure UpgradeItem where
  provider : Provider
  NextVersion : String
deriving DecidableEq, Repr

/-- The upgrade item's identity is the embedded provider's identity
(`UpgradeItem.UpgradeRef`/`InstanceName`). -/
def UpgradeItem.InstanceName (u : UpgradeItem) : String :=
  u.provider.InstanceName

/-- `UpgradePlan` defines a list of possible upgrade targets for a
management cluster: a contract and one upgrade item per provider. -/
structure UpgradePlan where
  Contract : String
  Providers : List UpgradeItem
deriving DecidableEq, Repr

/-- `isPartialUpgrade` returns true if at least one upgradeItem in the plan
does not have a target version (the source's loop over `u.Providers`). -/
def UpgradePlan.isPartialUpgrade (u : UpgradePlan) : Bool :=
  u.Providers.any (fun i => i.NextVersion == "")

/-- Errors of the engine. Each constructor mirrors one `errors.Errorf`
call site of `upgrader.go` (carrying the formatted arguments; the literal
message text is dropped), `collab` stands for an opaque error value
returned by an external collaborator and propagated unchanged, and
`wrapped` mirrors `errors.Wrapf` around a non-nil cause. -/
inductive GoErr where
  | collab (msg : String)
  | wrapped (cause : GoErr)
  | notExactlyOneCore (n : Nat)
  | unsupportedContract (requested : String)
  | unknownProvider (name : String)
  | contractMismatch (name contract target : String)
  | laggingProvider (name contract target : String)
deriving DecidableEq, Repr

/-- `errors.Wrapf` of the pkg/errors library: by its documented contract it
returns nil when the error being wrapped is nil, and otherwise annotates
the cause (the message argument is dropped in this model). -/
def wrapf (e : Option GoErr) : Option GoErr :=
  e.map GoErr.wrapped

/-- `clusterv1.GroupVersion.Version` for the vendored API package
`sigs.k8s.io/cluster-api/api/v1beta1`: the single contract this release of
the engine can drive a fleet to. -/
def clusterv1GroupVersionVersion : String := "v1beta1"

/-- `ProviderList.FilterCore()`: the providers of type Core. -/
def filterCore (l : List Provider) : List Provider :=
  l.filter (fun p => p.pType == ProviderType.core)

/-- Modelled from the spec: the derived upgrade information for a provider
(`upgradeInfo` and its methods are not among the provided sources). It
carries the current contract, the candidate contracts for upgrade
(`getContractsForUpgrade`), and, per candidate contract, the version tag of
the latest next version supporting it, empty when none
(`getLatestNextVersion` composed with `versionTag`). -/
structure UpgradeInfo where
  currentContract : String
  contractsForUpgrade : List String
  latestNextVersionTag : String → String

/-- Environment of the Plan builder: the inventory client's `List` and the
per-provider metadata resolution `getUpgradeInfo`, both external effects
from the point of view of `Plan`. -/
structure PlanEnv where
  inventoryList : Except GoErr (List Provider)
  getUpgradeInfo : Provider → Except GoErr UpgradeInfo

/-- The loop body of `getUpgradePlan`: one upgrade item per provider,
whose next version is the latest available version with the target
contract (empty when none); a resolver failure aborts. -/
def getUpgradeItems (env : PlanEnv) (contract : String) :
    List Provider → Except GoErr (List UpgradeItem)
  | [] => .ok []
  | p :: rest =>
    match env.getUpgradeInfo p with
    | .error e => .error e
    | .ok info =>
      match getUpgradeItems env contract rest with
      | .error e => .error e
      | .ok items =>
        .ok ({ provider := p, NextVersion := info.latestNextVersionTag contract } :: items)

/-- `getUpgradePlan` returns the upgrade plan for a specific set of
providers and a contract. -/
def getUpgradePlan (env : PlanEnv) (providers : List Provider) (contract : String) :
    Except GoErr UpgradePlan :=
  match getUpgradeItems env contract providers with
  | .error e => .error e
  | .ok items => .ok { Contract := contract, Providers := items }

/-- The loop of `Plan` over the candidate contracts: build the plan for
each contract and drop it when it is partial and the contract differs from
the core provider's current contract. -/
def planLoop (env : PlanEnv) (providers : List Provider) (currentContract : String) :
    List String → List UpgradePlan → Option (List UpgradePlan) × Option GoErr
  | [], ret => (some ret, none)
  | contract :: rest, ret =>
    match getUpgradePlan env providers contract with
    | .error e => (none, some e)
    | .ok upgradePlan =>
      if upgradePlan.isPartialUpgrade && currentContract != contract then
        planLoop env providers currentContract rest ret
      else
        planLoop env providers currentContract rest (ret ++ [upgradePlan])

/-- `Plan` returns the set of suggested upgrade plans for the management
cluster. The result mirrors Go's `([]UpgradePlan, error)` pair: first
component the returned plans (none for the nil slice), second the returned
error (none for nil). -/
def Plan (env : PlanEnv) : Option (List UpgradePlan) × Option GoErr :=
  match env.inventoryList with
  | .error e => (none, some e)
  | .ok items =>
    match filterCore items with
    | [coreProvider] =>
      match env.getUpgradeInfo coreProvider with
      | .error e => (none, some e)
      | .ok coreUpgradeInfo =>
        if coreUpgradeInfo.contractsForUpgrade.isEmpty then
          -- at this point the local `err` is nil (the getUpgradeInfo call
          -- just succeeded), so `errors.Wrapf(err, "invalid metadata: ...")`
          -- returns nil and the function returns (nil, nil)
          (none, wrapf none)
        else
          planLoop env items coreUpgradeInfo.currentContract
            coreUpgradeInfo.contractsForUpgrade []
    | cores =>
      -- `len(coreProviders) != 1` check
      (none, some (.notExactlyOneCore cores.length))

/-- Environment of the custom plan validator and of `ApplyPlan`: the
inventory client's `List` and the resolver `getProviderContractByVersion`
(the latter is abstracted as an external effect since its body only calls
the metadata collaborator: parse the target version, look up the release
series containing it and return that series' contract). -/
structure CustomEnv where
  inventoryList : Except GoErr (List Provider)
  getProviderContractByVersion : Provider → String → Except GoErr String

/-- The target core provider version of `createCustomPlan`: the requested
next version of the first upgrade item matching the core provider's
identity, if any, else the core provider's installed version (the loop
with `break` over `upgradeItems`). -/
def targetCoreProviderVersion (upgradeItems : List UpgradeItem) (coreProvider : Provider) :
    String :=
  match upgradeItems.find? (fun it => it.InstanceName == coreProvider.InstanceName) with
  | some it => it.NextVersion
  | none => coreProvider.version

/-- The first loop of `createCustomPlan` over the requested upgrade items:
match each item with the corresponding provider in the management cluster
(`UnknownProvider` error if absent), resolve the contract supported by the
item's target version (`ContractMismatch` error if it differs from the
target contract), and accumulate the accepted items and their instance
names. -/
def customItemsLoop (env : CustomEnv) (provs : List Provider) (targetContract : String) :
    List UpgradeItem → Except GoErr (List UpgradeItem × List String)
  | [] => .ok ([], [])
  | upgradeItem :: rest =>
    match provs.find? (fun p => p.InstanceName == upgradeItem.InstanceName) with
    | none => .error (.unknownProvider upgradeItem.InstanceName)
    | some provider =>
      match env.getProviderContractByVersion provider upgradeItem.NextVersion with
      | .error e => .error e
      | .ok contract =>
        if contract != targetContract then
          .error (.contractMismatch upgradeItem.InstanceName contract targetContract)
        else
          match customItemsLoop env provs targetContract rest with
          | .error e => .error e
          | .ok (items, names) => .ok (upgradeItem :: items, upgradeItem.InstanceName :: names)

/-- The second loop of `createCustomPlan`, over the providers of the
management cluster: skip providers already included in the upgrade plan,
resolve the contract supported by the current version of each remaining
provider, and fail with `LaggingProvider` if it differs from the target
contract. -/
def laggingLoop (env : CustomEnv) (upgradeInstanceNames : List String)
    (targetContract : String) : List Provider → Except GoErr Unit
  | [] => .ok ()
  | provider :: rest =>
    if upgradeInstanceNames.contains provider.InstanceName then
      laggingLoop env upgradeInstanceNames targetContract rest
    else
      match env.getProviderContractByVersion provider provider.version with
      | .error e => .error e
      | .ok contract =>
        if contract != targetContract then
          .error (.laggingProvider provider.InstanceName contract targetContract)
        else
          laggingLoop env upgradeInstanceNames targetContract rest

/-- `createCustomPlan` creates a custom upgrade plan from a set of upgrade
items, ensuring all the providers in a management cluster are consistent
with the contract supported by the core provider. -/
def createCustomPlan (env : CustomEnv) (upgradeItems : List UpgradeItem) :
    Except GoErr UpgradePlan :=
  match env.inventoryList with
  | .error e => .error e
  | .ok provs =>
    match filterCore provs with
    | [coreProvider] =>
      match env.getProviderContractByVersion coreProvider
          (targetCoreProviderVersion upgradeItems coreProvider) with
      | .error e => .error e
      | .ok targetContract =>
        if targetContract != clusterv1GroupVersionVersion then
          .error (.unsupportedContract targetContract)
        else
          match customItemsLoop env provs targetContract upgradeItems with
          | .error e => .error e
          | .ok (items, names) =>
            match laggingLoop env names targetContract provs with
            | .error e => .error e
            | .ok _ => .ok { Contract := targetContract, Providers := items }
    | cores =>
      -- `len(coreProviders) != 1` check
      .error (.notExactlyOneCore cores.length)

/-- `DeleteOptions` of the components client, as filled in by `doUpgrade`:
the provider being deleted plus the flags controlling what is kept. -/
structure DeleteOptions where
  provider : Provider
  IncludeNamespace : Bool
  IncludeCRDs : Bool
  SkipInventory : Bool
deriving DecidableEq, Repr

/-- One observable call issued by `doUpgrade` against a collaborator:
the single-instance inventory check, a provider scale-down (the drain),
a components fetch, a components delete, a components install, or the
webhook namespace deletion. -/
inductive ExecAction where
  | checkSingleInstance
  | scaleDown (provider : Provider)
  | fetchComponents (item : UpgradeItem)
  | delete (opts : DeleteOptions)
  | install (item : UpgradeItem)
  | deleteWebhookNamespace
deriving DecidableEq, Repr

/-- Environment of the rollout executor: the outcome of each collaborator
call `doUpgrade` can issue. `C` is the opaque type of fetched provider
components (`repository.Components`). -/
structure ExecEnv (C : Type) where
  checkSingleProviderInstance : Except GoErr Unit
  scaleDownProvider : Provider → Except GoErr Unit
  getUpgradeComponents : UpgradeItem → Except GoErr C
  deleteComponents : DeleteOptions → Except GoErr Unit
  installComponents : C → Except GoErr Unit
  deleteWebhookNamespace : Except GoErr Unit

/-- An executor step outcome: the returned error (none on success) and the
trace of collaborator calls issued, in order. -/
abbrev ExecResult := Option GoErr × List ExecAction

/-- Sequencing of executor steps: a failing step aborts with the actions
performed so far; a succeeding step's actions are followed by the next
step's. -/
def seqStep (a : ExecResult) (b : ExecResult) : ExecResult :=
  match a with
  | (some e, tr) => (some e, tr)
  | (none, tr) => (b.1, tr ++ b.2)

/-- The ordering relation on upgrade items induced by the provider-type
precedence (the reflexive closure of the `Order(a) < Order(b)` comparison
handed to `sort.Slice`). -/
def itemTypeLE (a b : UpgradeItem) : Prop :=
  a.provider.pType.Order ≤ b.provider.pType.Order

instance : DecidableRel itemTypeLE := fun a b =>
  Nat.decLe a.provider.pType.Order b.provider.pType.Order

instance : IsTotal UpgradeItem itemTypeLE :=
  ⟨fun a b => Nat.le_total a.provider.pType.Order b.provider.pType.Order⟩

instance : IsTrans UpgradeItem itemTypeLE :=
  ⟨fun _ _ _ hab hbc => Nat.le_trans hab hbc⟩

/-- The items come ordered Core, Bootstrap, ControlPlane, Infrastructure:
`sort.Slice(providers, Order(a) < Order(b))` rearranges the slice into a
permutation sorted by the type precedence; it is modelled by a sorting
function with the same postcondition. -/
def sortProviders (providers : List UpgradeItem) : List UpgradeItem :=
  List.insertionSort itemTypeLE providers

/-- The guard of `doUpgrade`: when the plan's contract equals
`clusterv1.GroupVersion.Version`, check for multiple instances of the same
provider via the inventory client. -/
def guardStep (env : ExecEnv C) (plan : UpgradePlan) : ExecResult :=
  if plan.Contract == clusterv1GroupVersionVersion then
    match env.checkSingleProviderInstance with
    | .error e => (some e, [.checkSingleInstance])
    | .ok _ => (none, [.checkSingleInstance])
  else (none, [])

/-- Phase A of `doUpgrade`: scale down all providers that have a specified
next version (items with an empty next version are skipped); a failure
aborts with the scale-downs performed so far. -/
def phaseA (env : ExecEnv C) : List UpgradeItem → ExecResult
  | [] => (none, [])
  | upgradeItem :: rest =>
    if upgradeItem.NextVersion == "" then phaseA env rest
    else
      match env.scaleDownProvider upgradeItem.provider with
      | .error e => (some e, [.scaleDown upgradeItem.provider])
      | .ok _ =>
        let r := phaseA env rest
        (r.1, .scaleDown upgradeItem.provider :: r.2)

/-- Phase B of `doUpgrade`: for every item with a specified next version,
fetch the provider components for the target version, delete the old
provider preserving CRDs, namespace and inventory, and install the new
version; each failure aborts with the calls issued so far. -/
def phaseB (env : ExecEnv C) : List UpgradeItem → ExecResult
  | [] => (none, [])
  | upgradeItem :: rest =>
    if upgradeItem.NextVersion == "" then phaseB env rest
    else
      match env.getUpgradeComponents upgradeItem with
      | .error e => (some e, [.fetchComponents upgradeItem])
      | .ok components =>
        let opts : DeleteOptions :=
          { provider := upgradeItem.provider
            IncludeNamespace := false
            IncludeCRDs := false
            SkipInventory := true }
        match env.deleteComponents opts with
        | .error e => (some e, [.fetchComponents upgradeItem, .delete opts])
        | .ok _ =>
          match env.installComponents components with
          | .error e =>
            (some e, [.fetchComponents upgradeItem, .delete opts, .install upgradeItem])
          | .ok _ =>
            let r := phaseB env rest
            (r.1, .fetchComponents upgradeItem :: .delete opts :: .install upgradeItem :: r.2)

/-- Phase C of `doUpgrade`: delete the webhook namespace when the plan's
contract equals `clusterv1.GroupVersion.Version`. -/
def cleanupStep (env : ExecEnv C) (plan : UpgradePlan) : ExecResult :=
  if plan.Contract == clusterv1GroupVersionVersion then
    match env.deleteWebhookNamespace with
    | .error e => (some e, [.deleteWebhookNamespace])
    | .ok _ => (none, [.deleteWebhookNamespace])
  else (none, [])

/-- `doUpgrade` executes an upgrade plan: the multiple-instance guard,
then, over the items sorted by provider-type precedence, the scale-down
phase followed by the delete-and-install phase, and finally the webhook
namespace cleanup. -/
def doUpgrade (env : ExecEnv C) (plan : UpgradePlan) : ExecResult :=
  let providers := sortProviders plan.Providers
  seqStep (guardStep env plan)
    (seqStep (phaseA env providers)
      (seqStep (phaseB env providers) (cleanupStep env plan)))

/-!
Helper lemmas about the Plan builder.
-/

/-- The drop rule of `Plan`, expressed as a per-contract keep function:
the plan built for a candidate contract, unless it is partial and the
contract differs from the core provider's current contract. -/
def keepPlanForContract (env : PlanEnv) (providers : List Provider)
    (currentContract contract : String) : Option UpgradePlan :=
  match getUpgradePlan env providers contract with
  | .error _ => none
  | .ok p => if p.isPartialUpgrade && currentContract != contract then none else some p

theorem planLoop_ok (env : PlanEnv) (provs : List Provider) (cur : String) :
    ∀ (cs : List String) (acc ret : List UpgradePlan),
    planLoop env provs cur cs acc = (some ret, none) →
    ret = acc ++ cs.filterMap (keepPlanForContract env provs cur)
  | [], acc, ret, h => by
    simp only [planLoop, Prod.mk.injEq, Option.some.injEq] at h
    simp [h.1.symm]
  | c :: rest, acc, ret, h => by
    rw [planLoop] at h
    cases hp : getUpgradePlan env provs c with
    | error e => rw [hp] at h; simp at h
    | ok p =>
      rw [hp] at h
      dsimp only [] at h
      by_cases hc : (p.isPartialUpgrade && cur != c) = true
      · rw [if_pos hc] at h
        have ih := planLoop_ok env provs cur rest acc ret h
        simp [List.filterMap_cons, keepPlanForContract, hp, hc, ih]
      · rw [if_neg hc] at h
        have ih := planLoop_ok env provs cur rest (acc ++ [p]) ret h
        rw [ih]
        simp only [Bool.not_eq_true] at hc
        simp [List.filterMap_cons, keepPlanForContract, hp, hc]

theorem getUpgradePlan_contract (env : PlanEnv) (provs : List Provider)
    (c : String) (p : UpgradePlan) (h : getUpgradePlan env provs c = .ok p) :
    p.Contract = c := by
  rw [getUpgradePlan] at h
  cases hi : getUpgradeItems env c provs with
  | error e => rw [hi] at h; exact absurd h (by simp)
  | ok items => rw [hi] at h; cases h; rfl

theorem plan_ok_ret (env : PlanEnv) (provs : List Provider)
    (core : Provider) (info : UpgradeInfo) (ret : List UpgradePlan)
    (hList : env.inventoryList = .ok provs)
    (hCore : filterCore provs = [core])
    (hInfo : env.getUpgradeInfo core = .ok info)
    (hOk : Plan env = (some ret, none)) :
    ret = info.contractsForUpgrade.filterMap
      (keepPlanForContract env provs info.currentContract) := by
  rw [Plan, hList] at hOk
  simp only [hCore] at hOk
  rw [hInfo] at hOk
  dsimp only [] at hOk
  cases hcs : info.contractsForUpgrade with
  | nil => rw [hcs] at hOk; simp [wrapf] at hOk
  | cons c rest =>
    rw [hcs] at hOk
    simp only [List.isEmpty_cons, if_neg] at hOk
    have := planLoop_ok env provs info.currentContract (c :: rest) [] ret hOk
    simpa using this

/-- C1: for every fleet and candidate contract, the candidate's plan is in
the list returned by `Plan` exactly when it is not both partial and for a
contract different from the core provider's current contract (the returned
list is the filterMap of the keep function over the candidate contracts);
consequently every returned plan whose contract differs from the current
contract has a non-empty next version in every item. -/
theorem planBuilderDropRule (env : PlanEnv) (provs : List Provider)
    (core : Provider) (info : UpgradeInfo) (ret : List UpgradePlan)
    (hList : env.inventoryList = .ok provs)
    (hCore : filterCore provs = [core])
    (hInfo : env.getUpgradeInfo core = .ok info)
    (hOk : Plan env = (some ret, none)) :
    ret = info.contractsForUpgrade.filterMap
      (keepPlanForContract env provs info.currentContract)
    ∧ ∀ p ∈ ret, p.Contract ≠ info.currentContract →
        ∀ it ∈ p.Providers, it.NextVersion ≠ "" := by
  have h1 := plan_ok_ret env provs core info ret hList hCore hInfo hOk
  refine ⟨h1, ?_⟩
  intro p hp hne it hit
  rw [h1] at hp
  rcases List.mem_filterMap.1 hp with ⟨c, _, hkeep⟩
  rw [keepPlanForContract] at hkeep
  cases hq : getUpgradePlan env provs c with
  | error e => rw [hq] at hkeep; simp at hkeep
  | ok q =>
    rw [hq] at hkeep
    dsimp only [] at hkeep
    split at hkeep
    · simp at hkeep
    · rename_i hcond
      have hqp : q = p := by simpa using hkeep
      subst hqp
      have hc : q.Contract = c := getUpgradePlan_contract env provs c q hq
      have hcur : (info.currentContract != c) = true := by
        rw [bne_iff_ne]
        intro hEq
        exact hne (hc.trans hEq.symm)
      have hpartial : q.isPartialUpgrade = false := by
        cases hb : q.isPartialUpgrade with
        | false => rfl
        | true => exact absurd (by rw [hb, hcur]; rfl) hcond
      rw [UpgradePlan.isPartialUpgrade] at hpartial
      have := List.any_eq_false.1 hpartial it hit
      simpa using this

/-- Witness fleet for the drop rule: a core provider with a newer release
on a new contract and an infrastructure provider with no newer release. -/
def coreW : Provider := ⟨.core, "cluster-api", "capi-system", "v1.0.0"⟩

def infraW : Provider := ⟨.infrastructure, "docker", "capd-system", "v1.0.0"⟩

def infoCoreW : UpgradeInfo :=
  ⟨"v1alpha4", ["v1alpha4", "v1beta1"], fun c => if c == "v1beta1" then "v2.0.0" else ""⟩

def infoInfraW : UpgradeInfo := ⟨"v1alpha4", ["v1alpha4"], fun _ => ""⟩

def planEnvW : PlanEnv :=
  ⟨.ok [coreW, infraW], fun p => if p == coreW then .ok infoCoreW else .ok infoInfraW⟩

/-- On the witness fleet, `Plan` keeps only the partial plan for the
current contract, per the drop rule. -/
theorem planBuilderDropRuleWitness :
    [UpgradePlan.mk "v1alpha4" [⟨coreW, ""⟩, ⟨infraW, ""⟩]] =
      infoCoreW.contractsForUpgrade.filterMap
        (keepPlanForContract planEnvW [coreW, infraW] infoCoreW.currentContract) :=
  (planBuilderDropRule planEnvW [coreW, infraW] coreW infoCoreW
    [UpgradePlan.mk "v1alpha4" [⟨coreW, ""⟩, ⟨infraW, ""⟩]]
    rfl (by decide) rfl (by decide)).1

/-- A management cluster whose core provider's upgrade info yields no
candidate contract at all. -/
def planEnvNoContracts : PlanEnv :=
  ⟨.ok [coreW], fun _ => .ok ⟨"v1alpha3", [], fun _ => ""⟩⟩

/-- C8 evidence: when the set of candidate contracts is empty, `Plan`
returns a nil error together with nil plans — it succeeds instead of
failing, because the `errors.Wrapf(err, "invalid metadata: ...")` at that
return site wraps an `err` that is necessarily nil there. -/
theorem planEmptyContractsReturnsNoError :
    Plan planEnvNoContracts = (none, none) := rfl

/-!
Helper lemmas about the custom plan validator.
-/

theorem customItemsLoop_ok (env : CustomEnv) (provs : List Provider) (t : String) :
    ∀ (items its : List UpgradeItem) (names : List String),
    customItemsLoop env provs t items = .ok (its, names) →
    its = items ∧ names = items.map (fun it => it.InstanceName) ∧
    ∀ it ∈ items,
      ∃ p, provs.find? (fun q => q.InstanceName == it.InstanceName) = some p ∧
        env.getProviderContractByVersion p it.NextVersion = .ok t
  | [], its, names, h => by
    simp only [customItemsLoop, Except.ok.injEq, Prod.mk.injEq] at h
    simp [h.1.symm, h.2.symm]
  | it :: rest, its, names, h => by
    rw [customItemsLoop] at h
    cases hf : provs.find? (fun q => q.InstanceName == it.InstanceName) with
    | none => rw [hf] at h; simp at h
    | some provider =>
      rw [hf] at h
      dsimp only [] at h
      cases hr : env.getProviderContractByVersion provider it.NextVersion with
      | error e => rw [hr] at h; simp at h
      | ok contract =>
        rw [hr] at h
        dsimp only [] at h
        split at h
        · simp at h
        · rename_i hcond
          have hct : contract = t := by simpa using hcond
          cases hrec : customItemsLoop env provs t rest with
          | error e => rw [hrec] at h; simp at h
          | ok pr =>
            obtain ⟨its2, names2⟩ := pr
            rw [hrec] at h
            dsimp only [] at h
            obtain ⟨h1, h2⟩ := by simpa using h
            have ih := customItemsLoop_ok env provs t rest its2 names2 hrec
            refine ⟨by rw [h1.symm, ih.1], by simp [h2.symm, ih.2.1], ?_⟩
            intro u hu
            rcases List.mem_cons.1 hu with hEq | hTail
            · subst hEq
              exact ⟨provider, hf, by rw [hr, hct]⟩
            · exact ih.2.2 u hTail

theorem laggingLoop_ok (env : CustomEnv) (names : List String) (t : String) :
    ∀ (ps : List Provider), laggingLoop env names t ps = .ok () →
    ∀ q ∈ ps, names.contains q.InstanceName = false →
    ∀ c, env.getProviderContractByVersion q q.version = .ok c → c = t
  | [], _, q, hq, _, _, _ => absurd hq (List.not_mem_nil q)
  | provider :: rest, h, q, hq, hnc, c, hres => by
    rw [laggingLoop] at h
    rcases List.mem_cons.1 hq with hEq | hTail
    · subst hEq
      rw [if_neg (by rw [hnc]; simp)] at h
      rw [hres] at h
      dsimp only [] at h
      split at h
      · simp at h
      · rename_i hcond
        simpa using hcond
    · split at h
      · exact laggingLoop_ok env names t rest h q hTail hnc c hres
      · cases hr : env.getProviderContractByVersion provider provider.version with
        | error e => rw [hr] at h; simp at h
        | ok c2 =>
          rw [hr] at h
          dsimp only [] at h
          split at h
          · simp at h
          · exact laggingLoop_ok env names t rest h q hTail hnc c hres

theorem contains_instName_false (items : List UpgradeItem) (x : String) :
    ((items.map (fun it => it.InstanceName)).contains x = false) ↔
      ∀ it ∈ items, it.InstanceName ≠ x := by
  simp

theorem customItemsLoop_error (env : CustomEnv) (provs : List Provider) (t : String)
    (hSane : ∀ q v e, env.getProviderContractByVersion q v = .error e → ∃ s, e = .collab s) :
    ∀ (items : List UpgradeItem) (e : GoErr),
    customItemsLoop env provs t items = .error e →
    (∃ u ∈ items, e = .unknownProvider u.InstanceName ∧
        provs.find? (fun q => q.InstanceName == u.InstanceName) = none) ∨
    (∃ u ∈ items, ∃ p c, e = .contractMismatch u.InstanceName c t ∧
        provs.find? (fun q => q.InstanceName == u.InstanceName) = some p ∧
        env.getProviderContractByVersion p u.NextVersion = .ok c ∧ c ≠ t) ∨
    (∃ s, e = .collab s)
  | [], e, h => by simp [customItemsLoop] at h
  | it :: rest, e, h => by
    rw [customItemsLoop] at h
    cases hf : provs.find? (fun q => q.InstanceName == it.InstanceName) with
    | none =>
      rw [hf] at h
      dsimp only [] at h
      have he : GoErr.unknownProvider it.InstanceName = e := by simpa using h
      exact Or.inl ⟨it, List.mem_cons_self it rest, he.symm, hf⟩
    | some provider =>
      rw [hf] at h
      dsimp only [] at h
      cases hr : env.getProviderContractByVersion provider it.NextVersion with
      | error e2 =>
        rw [hr] at h
        dsimp only [] at h
        have he : e2 = e := by simpa using h
        rcases hSane provider it.NextVersion e2 hr with ⟨s, hs⟩
        exact Or.inr (Or.inr ⟨s, by rw [← he, hs]⟩)
      | ok contract =>
        rw [hr] at h
        dsimp only [] at h
        split at h
        · rename_i hcond
          have hcne : contract ≠ t := by simpa using hcond
          have he : GoErr.contractMismatch it.InstanceName contract t = e := by
            simpa using h
          exact Or.inr (Or.inl
            ⟨it, List.mem_cons_self it rest, provider, contract, he.symm, hf, hr, hcne⟩)
        · cases hrec : customItemsLoop env provs t rest with
          | error e3 =>
            rw [hrec] at h
            dsimp only [] at h
            have he : e3 = e := by simpa using h
            rcases customItemsLoop_error env provs t hSane rest e3 hrec with
              h1 | h2 | h3
            · rcases h1 with ⟨u, hu, rest1⟩
              exact Or.inl ⟨u, List.mem_cons_of_mem it hu, he ▸ rest1⟩
            · rcases h2 with ⟨u, hu, rest2⟩
              exact Or.inr (Or.inl ⟨u, List.mem_cons_of_mem it hu, he ▸ rest2⟩)
            · exact Or.inr (Or.inr (he ▸ h3))
          | ok pr =>
            obtain ⟨a, b⟩ := pr
            rw [hrec] at h
            simp at h

theorem laggingLoop_error (env : CustomEnv) (names : List String) (t : String)
    (hSane : ∀ q v e, env.getProviderContractByVersion q v = .error e → ∃ s, e = .collab s) :
    ∀ (ps : List Provider) (n c2 t2 : String),
    laggingLoop env names t ps = .error (.laggingProvider n c2 t2) →
    t2 = t ∧ ∃ q ∈ ps, q.InstanceName = n ∧ names.contains q.InstanceName = false ∧
      env.getProviderContractByVersion q q.version = .ok c2 ∧ c2 ≠ t
  | [], n, c2, t2, h => by simp [laggingLoop] at h
  | provider :: rest, n, c2, t2, h => by
    rw [laggingLoop] at h
    split at h
    · rcases laggingLoop_error env names t hSane rest n c2 t2 h with ⟨ht, q, hq, rest1⟩
      exact ⟨ht, q, List.mem_cons_of_mem provider hq, rest1⟩
    · rename_i hnc
      cases hr : env.getProviderContractByVersion provider provider.version with
      | error e2 =>
        rw [hr] at h
        dsimp only [] at h
        have he : e2 = GoErr.laggingProvider n c2 t2 := by simpa using h
        rcases hSane provider provider.version e2 hr with ⟨s, hs⟩
        rw [hs] at he
        exact absurd he (by simp)
      | ok c3 =>
        rw [hr] at h
        dsimp only [] at h
        split at h
        · rename_i hcond
          have hinj : provider.InstanceName = n ∧ c3 = c2 ∧ t = t2 := by simpa using h
          have hc3t : c3 ≠ t := by simpa using hcond
          refine ⟨hinj.2.2.symm, provider, List.mem_cons_self provider rest, hinj.1,
            by simpa using hnc, by rw [hr, hinj.2.1], ?_⟩
          rw [← hinj.2.1]
          exact hc3t
        · rcases laggingLoop_error env names t hSane rest n c2 t2 h with ⟨ht, q, hq, rest1⟩
          exact ⟨ht, q, List.mem_cons_of_mem provider hq, rest1⟩

theorem createCustomPlan_ok (env : CustomEnv) (items : List UpgradeItem)
    (plan : UpgradePlan) (h : createCustomPlan env items = .ok plan) :
    ∃ provs core names0,
      env.inventoryList = .ok provs ∧
      filterCore provs = [core] ∧
      env.getProviderContractByVersion core (targetCoreProviderVersion items core)
        = .ok clusterv1GroupVersionVersion ∧
      customItemsLoop env provs clusterv1GroupVersionVersion items
        = .ok (plan.Providers, names0) ∧
      laggingLoop env names0 clusterv1GroupVersionVersion provs = .ok () ∧
      plan.Contract = clusterv1GroupVersionVersion := by
  rw [createCustomPlan] at h
  cases hl : env.inventoryList with
  | error e => rw [hl] at h; simp at h
  | ok provs =>
    rw [hl] at h
    dsimp only [] at h
    cases hfc : filterCore provs with
    | nil => rw [hfc] at h; simp at h
    | cons core rest =>
      cases rest with
      | cons b l => rw [hfc] at h; simp at h
      | nil =>
        rw [hfc] at h
        dsimp only [] at h
        cases hr : env.getProviderContractByVersion core
            (targetCoreProviderVersion items core) with
        | error e => rw [hr] at h; simp at h
        | ok tc =>
          rw [hr] at h
          dsimp only [] at h
          split at h
          · simp at h
          · rename_i hcond
            have htc : tc = clusterv1GroupVersionVersion := by simpa using hcond
            subst htc
            cases hcl : customItemsLoop env provs clusterv1GroupVersionVersion items with
            | error e => rw [hcl] at h; simp at h
            | ok pr =>
              obtain ⟨its, names0⟩ := pr
              rw [hcl] at h
              dsimp only [] at h
              cases hll : laggingLoop env names0 clusterv1GroupVersionVersion provs with
              | error e => rw [hll] at h; simp at h
              | ok u =>
                rw [hll] at h
                dsimp only [] at h
                have hp : UpgradePlan.mk clusterv1GroupVersionVersion its = plan := by
                  simpa using h
                subst hp
                exact ⟨provs, core, names0, rfl, hfc, hr, hcl, by cases u; exact hll, rfl⟩

theorem laggingLoop_error_shape (env : CustomEnv) (names : List String) (t : String)
    (hSane : ∀ q v e, env.getProviderContractByVersion q v = .error e → ∃ s, e = .collab s) :
    ∀ (ps : List Provider) (e : GoErr), laggingLoop env names t ps = .error e →
    (∃ n c2, e = .laggingProvider n c2 t) ∨ ∃ s, e = .collab s
  | [], e, h => by simp [laggingLoop] at h
  | provider :: rest, e, h => by
    rw [laggingLoop] at h
    split at h
    · exact laggingLoop_error_shape env names t hSane rest e h
    · cases hr : env.getProviderContractByVersion provider provider.version with
      | error e2 =>
        rw [hr] at h
        dsimp only [] at h
        have he : e2 = e := by simpa using h
        rcases hSane provider provider.version e2 hr with ⟨s, hs⟩
        exact Or.inr ⟨s, by rw [← he, hs]⟩
      | ok c3 =>
        rw [hr] at h
        dsimp only [] at h
        split at h
        · have he : GoErr.laggingProvider provider.InstanceName c3 t = e := by
            simpa using h
          exact Or.inl ⟨provider.InstanceName, c3, he.symm⟩
        · exact laggingLoop_error_shape env names t hSane rest e h

theorem createCustomPlan_error_cases (env : CustomEnv) (items : List UpgradeItem)
    (provs : List Provider) (e : GoErr)
    (hSane : ∀ q v e2, env.getProviderContractByVersion q v = .error e2 → ∃ s, e2 = .collab s)
    (hList : env.inventoryList = .ok provs)
    (herr : createCustomPlan env items = .error e) :
    (∃ n, e = .notExactlyOneCore n) ∨
    (∃ s, e = .collab s) ∨
    (∃ tc, e = .unsupportedContract tc) ∨
    (∃ core, filterCore provs = [core] ∧
      env.getProviderContractByVersion core (targetCoreProviderVersion items core)
        = .ok clusterv1GroupVersionVersion ∧
      (customItemsLoop env provs clusterv1GroupVersionVersion items = .error e ∨
       ∃ its names0,
         customItemsLoop env provs clusterv1GroupVersionVersion items = .ok (its, names0) ∧
         laggingLoop env names0 clusterv1GroupVersionVersion provs = .error e)) := by
  rw [createCustomPlan, hList] at herr
  dsimp only [] at herr
  cases hfc : filterCore provs with
  | nil =>
    rw [hfc] at herr
    dsimp only [] at herr
    exact Or.inl ⟨0, by simpa using herr.symm⟩
  | cons core rest =>
    cases rest with
    | cons b l =>
      rw [hfc] at herr
      dsimp only [] at herr
      exact Or.inl ⟨(core :: b :: l).length, by simpa using herr.symm⟩
    | nil =>
      rw [hfc] at herr
      dsimp only [] at herr
      cases hr : env.getProviderContractByVersion core
          (targetCoreProviderVersion items core) with
      | error e2 =>
        rw [hr] at herr
        dsimp only [] at herr
        have he : e2 = e := by simpa using herr
        rcases hSane _ _ _ hr with ⟨s, hs⟩
        exact Or.inr (Or.inl ⟨s, by rw [← he, hs]⟩)
      | ok tc =>
        rw [hr] at herr
        dsimp only [] at herr
        split at herr
        · exact Or.inr (Or.inr (Or.inl ⟨tc, by simpa using herr.symm⟩))
        · rename_i hcond
          have htc : tc = clusterv1GroupVersionVersion := by simpa using hcond
          subst htc
          cases hcl : customItemsLoop env provs clusterv1GroupVersionVersion items with
          | error e2 =>
            rw [hcl] at herr
            dsimp only [] at herr
            have he : e2 = e := by simpa using herr
            exact Or.inr (Or.inr (Or.inr ⟨core, rfl, hr, Or.inl (by rw [← he])⟩))
          | ok pr =>
            obtain ⟨its, names0⟩ := pr
            rw [hcl] at herr
            dsimp only [] at herr
            cases hll : laggingLoop env names0 clusterv1GroupVersionVersion provs with
            | error e2 =>
              rw [hll] at herr
              dsimp only [] at herr
              have he : e2 = e := by simpa using herr
              exact Or.inr (Or.inr (Or.inr
                ⟨core, rfl, hr, Or.inr ⟨its, names0, rfl, by rw [← he]; exact hll⟩⟩))
            | ok u =>
              rw [hll] at herr
              cases u
              simp at herr

/-- C2: in the custom plan validator, the target core version is the
requested next version when the core provider appears among the requested
items and its installed version otherwise; the target contract is resolved
from that version, and validation fails with the unsupported-contract
error whenever the resolved contract differs from the single supported
contract (and a validated plan always resolved it to that contract). -/
theorem customPlanTargetCoreContract (env : CustomEnv) (items : List UpgradeItem)
    (provs : List Provider) (core : Provider)
    (hList : env.inventoryList = .ok provs)
    (hCore : filterCore provs = [core]) :
    (∀ it, items.find? (fun i => i.InstanceName == core.InstanceName) = some it →
        targetCoreProviderVersion items core = it.NextVersion)
    ∧ (items.find? (fun i => i.InstanceName == core.InstanceName) = none →
        targetCoreProviderVersion items core = core.version)
    ∧ (∀ tc, env.getProviderContractByVersion core (targetCoreProviderVersion items core)
          = .ok tc → tc ≠ clusterv1GroupVersionVersion →
        createCustomPlan env items = .error (.unsupportedContract tc))
    ∧ ∀ plan, createCustomPlan env items = .ok plan →
        env.getProviderContractByVersion core (targetCoreProviderVersion items core)
          = .ok clusterv1GroupVersionVersion := by
  refine ⟨?_, ?_, ?_, ?_⟩
  · intro it hit
    rw [targetCoreProviderVersion, hit]
  · intro hnone
    rw [targetCoreProviderVersion, hnone]
  · intro tc hres hne
    rw [createCustomPlan, hList]
    dsimp only []
    rw [hCore]
    dsimp only []
    rw [hres]
    dsimp only []
    rw [if_pos (by simpa using hne)]
  · intro plan hok
    rcases createCustomPlan_ok env items plan hok with
      ⟨provs2, core2, names0, hl2, hc2, hr2, _⟩
    rw [hList] at hl2
    have hpp : provs = provs2 := by simpa using hl2
    subst hpp
    rw [hCore] at hc2
    have hcc : core = core2 := by simpa using hc2
    subst hcc
    exact hr2

/-- Witness management cluster for the custom plan validator: a core
provider and a control plane provider, whose metadata maps version
`v2.0.0` to the supported contract and every other version to `v1alpha4`. -/
def cpC : Provider := ⟨.controlPlane, "kubeadm", "kcp-system", "v1.0.0"⟩

def resolverC : Provider → String → Except GoErr String :=
  fun _ v => .ok (if v == "v2.0.0" then "v1beta1" else "v1alpha4")

def customEnvC : CustomEnv := ⟨.ok [coreW, cpC], resolverC⟩

/-- With no requested items, the target core version is the installed one,
whose contract `v1alpha4` differs from the supported contract, so the
validator fails with the unsupported-contract error. -/
theorem customPlanTargetCoreContractWitness :
    createCustomPlan customEnvC [] = .error (.unsupportedContract "v1alpha4") :=
  (customPlanTargetCoreContract customEnvC [] [coreW, cpC] coreW rfl
    (by decide)).2.2.1 "v1alpha4" rfl (by decide)

/-- C3: a request omitting a live provider whose current version resolves
to a contract different from the supported target contract is never
accepted, and a lagging-provider error always names a live provider that
was omitted from the request and whose current contract differs from the
target contract. -/
theorem customPlanRejectsLaggingProvider (env : CustomEnv) (items : List UpgradeItem)
    (provs : List Provider) (p : Provider) (c : String)
    (hSane : ∀ q v e, env.getProviderContractByVersion q v = .error e → ∃ s, e = .collab s)
    (hList : env.inventoryList = .ok provs)
    (hMem : p ∈ provs)
    (hOmitted : ∀ it ∈ items, it.InstanceName ≠ p.InstanceName)
    (hRes : env.getProviderContractByVersion p p.version = .ok c)
    (hNe : c ≠ clusterv1GroupVersionVersion) :
    (∀ plan, createCustomPlan env items ≠ .ok plan)
    ∧ ∀ n c2 t, createCustomPlan env items = .error (.laggingProvider n c2 t) →
        t = clusterv1GroupVersionVersion ∧
        ∃ q ∈ provs, q.InstanceName = n ∧
          (∀ it ∈ items, it.InstanceName ≠ q.InstanceName) ∧
          env.getProviderContractByVersion q q.version = .ok c2 ∧ c2 ≠ t := by
  constructor
  · intro plan hok
    rcases createCustomPlan_ok env items plan hok with
      ⟨provs2, core2, names0, hl2, _, _, hcl, hll, _⟩
    rw [hList] at hl2
    have hpp : provs = provs2 := by simpa using hl2
    subst hpp
    have hnames :=
      (customItemsLoop_ok env provs clusterv1GroupVersionVersion items
        plan.Providers names0 hcl).2.1
    have hcontains : names0.contains p.InstanceName = false := by
      rw [hnames]
      exact (contains_instName_false items p.InstanceName).2 hOmitted
    exact hNe (laggingLoop_ok env names0 clusterv1GroupVersionVersion provs hll
      p hMem hcontains c hRes)
  · intro n c2 t herr
    rcases createCustomPlan_error_cases env items provs (.laggingProvider n c2 t)
        hSane hList herr with
      ⟨n2, hn⟩ | ⟨s, hs⟩ | ⟨tc, htc⟩ | ⟨core, _, _, hrest⟩
    · exact absurd hn (by simp)
    · exact absurd hs (by simp)
    · exact absurd htc (by simp)
    · rcases hrest with hclErr | ⟨its, names0, hcl, hll⟩
      · rcases customItemsLoop_error env provs clusterv1GroupVersionVersion hSane items
            (.laggingProvider n c2 t) hclErr with h1 | h2 | h3
        · rcases h1 with ⟨u, _, hu, _⟩
          exact absurd hu (by simp)
        · rcases h2 with ⟨u, _, p2, c3, hu, _⟩
          exact absurd hu (by simp)
        · rcases h3 with ⟨s, hs⟩
          exact absurd hs (by simp)
      · rcases laggingLoop_error env names0 clusterv1GroupVersionVersion hSane provs
            n c2 t hll with ⟨ht, q, hq, hqn, hqc, hqr, hqne⟩
        refine ⟨ht, q, hq, hqn, ?_, hqr, by rw [ht]; exact hqne⟩
        have hnames :=
          (customItemsLoop_ok env provs clusterv1GroupVersionVersion items
            its names0 hcl).2.1
        rw [hnames] at hqc
        exact (contains_instName_false items q.InstanceName).1 hqc

/-- A request upgrading only the core provider to `v2.0.0` while the
control plane provider stays on the old contract is rejected: applying the
theorem shows no plan whatsoever is returned for it. -/
theorem customPlanRejectsLaggingProviderWitness :
    createCustomPlan customEnvC [⟨coreW, "v2.0.0"⟩]
      ≠ .ok ⟨"v1beta1", [⟨coreW, "v2.0.0"⟩]⟩ :=
  (customPlanRejectsLaggingProvider customEnvC [⟨coreW, "v2.0.0"⟩] [coreW, cpC]
    cpC "v1alpha4" (fun _ _ _ h => nomatch h) rfl (by decide) (by decide) rfl
    (by decide)).1 ⟨"v1beta1", [⟨coreW, "v2.0.0"⟩]⟩

/-- C4: a requested item with no matching live provider record, or whose
requested target version resolves to a contract different from the target
contract, makes the validator reject the whole request (with the
unknown-provider and contract-mismatch errors respectively, each naming a
genuinely offending requested item), and every item of an accepted request
matches a live provider and resolves to the target contract. -/
theorem customPlanRequestedItemChecks (env : CustomEnv) (items : List UpgradeItem)
    (provs : List Provider) (it : UpgradeItem)
    (hSane : ∀ q v e, env.getProviderContractByVersion q v = .error e → ∃ s, e = .collab s)
    (hList : env.inventoryList = .ok provs)
    (hMem : it ∈ items) :
    (provs.find? (fun q => q.InstanceName == it.InstanceName) = none →
      ∀ plan, createCustomPlan env items ≠ .ok plan)
    ∧ (∀ p c, provs.find? (fun q => q.InstanceName == it.InstanceName) = some p →
        env.getProviderContractByVersion p it.NextVersion = .ok c →
        c ≠ clusterv1GroupVersionVersion →
        ∀ plan, createCustomPlan env items ≠ .ok plan)
    ∧ (∀ plan, createCustomPlan env items = .ok plan →
        ∃ p, provs.find? (fun q => q.InstanceName == it.InstanceName) = some p ∧
          env.getProviderContractByVersion p it.NextVersion
            = .ok clusterv1GroupVersionVersion)
    ∧ (∀ n, createCustomPlan env items = .error (.unknownProvider n) →
        ∃ u ∈ items, n = u.InstanceName ∧
          provs.find? (fun q => q.InstanceName == u.InstanceName) = none)
    ∧ ∀ n c t, createCustomPlan env items = .error (.contractMismatch n c t) →
        t = clusterv1GroupVersionVersion ∧
        ∃ u ∈ items, n = u.InstanceName ∧ ∃ p,
          provs.find? (fun q => q.InstanceName == u.InstanceName) = some p ∧
          env.getProviderContractByVersion p u.NextVersion = .ok c ∧ c ≠ t := by
  have hAccept : ∀ plan, createCustomPlan env items = .ok plan →
      ∃ p, provs.find? (fun q => q.InstanceName == it.InstanceName) = some p ∧
        env.getProviderContractByVersion p it.NextVersion
          = .ok clusterv1GroupVersionVersion := by
    intro plan hok
    rcases createCustomPlan_ok env items plan hok with
      ⟨provs2, core2, names0, hl2, _, _, hcl, _, _⟩
    rw [hList] at hl2
    have hpp : provs = provs2 := by simpa using hl2
    subst hpp
    exact (customItemsLoop_ok env provs clusterv1GroupVersionVersion items
      plan.Providers names0 hcl).2.2 it hMem
  refine ⟨?_, ?_, hAccept, ?_, ?_⟩
  · intro hnone plan hok
    rcases hAccept plan hok with ⟨p, hp, _⟩
    rw [hnone] at hp
    exact Option.noConfusion hp
  · intro p c hp hc hne plan hok
    rcases hAccept plan hok with ⟨p2, hp2, hr2⟩
    rw [hp] at hp2
    have hpp : p = p2 := by simpa using hp2
    subst hpp
    rw [hc] at hr2
    exact hne (by simpa using hr2)
  · intro n herr
    rcases createCustomPlan_error_cases env items provs (.unknownProvider n)
        hSane hList herr with
      ⟨n2, hn⟩ | ⟨s, hs⟩ | ⟨tc, htc⟩ | ⟨core, _, _, hrest⟩
    · exact absurd hn (by simp)
    · exact absurd hs (by simp)
    · exact absurd htc (by simp)
    · rcases hrest with hclErr | ⟨its, names0, _, hll⟩
      · rcases customItemsLoop_error env provs clusterv1GroupVersionVersion hSane items
            (.unknownProvider n) hclErr with h1 | h2 | h3
        · rcases h1 with ⟨u, hu, hn2, hfind⟩
          exact ⟨u, hu, by simpa using hn2, hfind⟩
        · rcases h2 with ⟨u, _, p2, c3, hu, _⟩
          exact absurd hu (by simp)
        · rcases h3 with ⟨s, hs⟩
          exact absurd hs (by simp)
      · rcases laggingLoop_error_shape env names0 clusterv1GroupVersionVersion hSane
            provs (.unknownProvider n) hll with ⟨n2, c2, hsh⟩ | ⟨s, hsh⟩
        · exact absurd hsh (by simp)
        · exact absurd hsh (by simp)
  · intro n c t herr
    rcases createCustomPlan_error_cases env items provs (.contractMismatch n c t)
        hSane hList herr with
      ⟨n2, hn⟩ | ⟨s, hs⟩ | ⟨tc, htc⟩ | ⟨core, _, _, hrest⟩
    · exact absurd hn (by simp)
    · exact absurd hs (by simp)
    · exact absurd htc (by simp)
    · rcases hrest with hclErr | ⟨its, names0, _, hll⟩
      · rcases customItemsLoop_error env provs clusterv1GroupVersionVersion hSane items
            (.contractMismatch n c t) hclErr with h1 | h2 | h3
        · rcases h1 with ⟨u, _, hu, _⟩
          exact absurd hu (by simp)
        · rcases h2 with ⟨u, hu, p2, c3, heq, hfind, hr3, hne3⟩
          have hinj : n = u.InstanceName ∧ c = c3 ∧ t = clusterv1GroupVersionVersion := by
            simpa using heq
          refine ⟨hinj.2.2, u, hu, hinj.1, p2, hfind, ?_, ?_⟩
          · rw [hr3, hinj.2.1]
          · rw [hinj.2.1, hinj.2.2]
            exact hne3
        · rcases h3 with ⟨s, hs⟩
          exact absurd hs (by simp)
      · rcases laggingLoop_error_shape env names0 clusterv1GroupVersionVersion hSane
            provs (.contractMismatch n c t) hll with ⟨n2, c2, hsh⟩ | ⟨s, hsh⟩
        · exact absurd hsh (by simp)
        · exact absurd hsh (by simp)

/-- A request naming a provider that is not part of the management cluster
is rejected: applying the theorem's unknown-provider conjunct at a
concrete request shows no plan is returned for it. -/
theorem customPlanRequestedItemChecksWitness :
    createCustomPlan customEnvC
        [⟨⟨.infrastructure, "aws", "capa-system", "v1.0.0"⟩, "v2.0.0"⟩]
      ≠ .ok ⟨"v1beta1", [⟨⟨.infrastructure, "aws", "capa-system", "v1.0.0"⟩, "v2.0.0"⟩]⟩ :=
  (customPlanRequestedItemChecks customEnvC
    [⟨⟨.infrastructure, "aws", "capa-system", "v1.0.0"⟩, "v2.0.0"⟩] [coreW, cpC]
    ⟨⟨.infrastructure, "aws", "capa-system", "v1.0.0"⟩, "v2.0.0"⟩
    (fun _ _ _ h => nomatch h) rfl (by decide)).1 (by decide)
    ⟨"v1beta1", [⟨⟨.infrastructure, "aws", "capa-system", "v1.0.0"⟩, "v2.0.0"⟩]⟩

/-!
Helper lemmas about the rollout executor.
-/

/-- An action of the replace phase: a components fetch, delete or install. -/
def isPhaseBAction : ExecAction → Bool
  | .fetchComponents _ => true
  | .delete _ => true
  | .install _ => true
  | _ => false

/-- A drain action: a provider scale-down. -/
def isDrainAction : ExecAction → Bool
  | .scaleDown _ => true
  | _ => false

/-- The provider drained by an action, when it is a drain. -/
def drainTarget : ExecAction → Option Provider
  | .scaleDown p => some p
  | _ => none

/-- The providers drained along a trace, in order. -/
def drainsOf (tr : List ExecAction) : List Provider :=
  tr.filterMap drainTarget

/-- The provider whose components an action deletes, when it is a delete. -/
def deleteTarget : ExecAction → Option Provider
  | .delete opts => some opts.provider
  | _ => none

/-- The providers deleted along a trace, in order. -/
def deletesOf (tr : List ExecAction) : List Provider :=
  tr.filterMap deleteTarget

theorem guardStep_trace {C : Type} (env : ExecEnv C) (plan : UpgradePlan) :
    (guardStep env plan).2 = [] ∨
      (guardStep env plan).2 = [ExecAction.checkSingleInstance] := by
  rw [guardStep]
  split
  · cases env.checkSingleProviderInstance <;> simp
  · simp

theorem cleanupStep_trace {C : Type} (env : ExecEnv C) (plan : UpgradePlan) :
    (cleanupStep env plan).2 = [] ∨
      (cleanupStep env plan).2 = [ExecAction.deleteWebhookNamespace] := by
  rw [cleanupStep]
  split
  · cases env.deleteWebhookNamespace <;> simp
  · simp

theorem phaseA_actions {C : Type} (env : ExecEnv C) :
    ∀ l, ∀ x ∈ (phaseA env l).2, ∃ p, x = ExecAction.scaleDown p
  | [], x, hx => absurd hx (by simp [phaseA])
  | it :: rest, x, hx => by
    rw [phaseA] at hx
    split at hx
    · exact phaseA_actions env rest x hx
    · cases hs : env.scaleDownProvider it.provider with
      | error e =>
        rw [hs] at hx
        dsimp only [] at hx
        exact ⟨it.provider, by simpa using hx⟩
      | ok u =>
        rw [hs] at hx
        dsimp only [] at hx
        rcases List.mem_cons.1 hx with hEq | hTail
        · exact ⟨it.provider, hEq⟩
        · exact phaseA_actions env rest x hTail

theorem phaseB_actions {C : Type} (env : ExecEnv C) :
    ∀ l, ∀ x ∈ (phaseB env l).2, isPhaseBAction x = true
  | [], x, hx => absurd hx (by simp [phaseB])
  | it :: rest, x, hx => by
    rw [phaseB] at hx
    split at hx
    · exact phaseB_actions env rest x hx
    · cases hf : env.getUpgradeComponents it with
      | error e =>
        rw [hf] at hx
        dsimp only [] at hx
        rcases by simpa using hx with hEq
        rw [hEq]; rfl
      | ok comps =>
        rw [hf] at hx
        dsimp only [] at hx
        cases hd : env.deleteComponents
            { provider := it.provider, IncludeNamespace := false,
              IncludeCRDs := false, SkipInventory := true } with
        | error e =>
          rw [hd] at hx
          dsimp only [] at hx
          rcases List.mem_cons.1 hx with hEq | hTail
          · rw [hEq]; rfl
          · rcases by simpa using hTail with hEq
            rw [hEq]; rfl
        | ok u =>
          rw [hd] at hx
          dsimp only [] at hx
          cases hi : env.installComponents comps with
          | error e =>
            rw [hi] at hx
            dsimp only [] at hx
            rcases List.mem_cons.1 hx with hEq | hTail
            · rw [hEq]; rfl
            · rcases List.mem_cons.1 hTail with hEq | hTail2
              · rw [hEq]; rfl
              · rcases by simpa using hTail2 with hEq
                rw [hEq]; rfl
          | ok u2 =>
            rw [hi] at hx
            dsimp only [] at hx
            rcases List.mem_cons.1 hx with hEq | hTail
            · rw [hEq]; rfl
            · rcases List.mem_cons.1 hTail with hEq | hTail2
              · rw [hEq]; rfl
              · rcases List.mem_cons.1 hTail2 with hEq | hTail3
                · rw [hEq]; rfl
                · exact phaseB_actions env rest x hTail3

theorem doUpgrade_trace {C : Type} (env : ExecEnv C) (plan : UpgradePlan) :
    ∃ g a b c, (doUpgrade env plan).2 = g ++ (a ++ (b ++ c)) ∧
      (g = [] ∨ g = [ExecAction.checkSingleInstance]) ∧
      (a = (phaseA env (sortProviders plan.Providers)).2 ∨ a = []) ∧
      (b = (phaseB env (sortProviders plan.Providers)).2 ∨ b = []) ∧
      (c = [] ∨ c = [ExecAction.deleteWebhookNamespace]) := by
  have hgs := guardStep_trace env plan
  have hcs := cleanupStep_trace env plan
  rw [doUpgrade]
  cases hg : guardStep env plan with
  | mk g1 g2 =>
    rw [hg] at hgs
    cases g1 with
    | some e =>
      exact ⟨g2, [], [], [], by simp [seqStep], hgs, Or.inr rfl, Or.inr rfl, Or.inl rfl⟩
    | none =>
      cases ha : phaseA env (sortProviders plan.Providers) with
      | mk a1 a2 =>
        cases a1 with
        | some e =>
          exact ⟨g2, a2, [], [], by simp [seqStep], hgs, Or.inl rfl, Or.inr rfl,
            Or.inl rfl⟩
        | none =>
          cases hb : phaseB env (sortProviders plan.Providers) with
          | mk b1 b2 =>
            cases b1 with
            | some e =>
              exact ⟨g2, a2, b2, [], by simp [seqStep], hgs, Or.inl rfl, Or.inl rfl,
                Or.inl rfl⟩
            | none =>
              exact ⟨g2, a2, b2, (cleanupStep env plan).2, by simp [seqStep], hgs,
                Or.inl rfl, Or.inl rfl, hcs⟩

theorem drainsOf_phaseA_sublist {C : Type} (env : ExecEnv C) :
    ∀ l, (drainsOf (phaseA env l).2).Sublist (l.map (fun it => it.provider))
  | [] => by simp [phaseA, drainsOf]
  | it :: rest => by
    rw [phaseA]
    split
    · exact (drainsOf_phaseA_sublist env rest).trans
        (List.sublist_cons_of_sublist it.provider (List.Sublist.refl _))
    · cases hs : env.scaleDownProvider it.provider with
      | error e =>
        simp only [drainsOf, List.map_cons, List.filterMap_cons, drainTarget]
        exact List.Sublist.cons₂ it.provider (List.nil_sublist _)
      | ok u =>
        simp only [drainsOf, List.map_cons, List.filterMap_cons, drainTarget]
        exact List.Sublist.cons₂ it.provider (drainsOf_phaseA_sublist env rest)

theorem drainsOf_phaseB_nil {C : Type} (env : ExecEnv C) :
    ∀ l, drainsOf (phaseB env l).2 = []
  | [] => by simp [phaseB, drainsOf]
  | it :: rest => by
    rw [phaseB]
    split
    · exact drainsOf_phaseB_nil env rest
    · cases hf : env.getUpgradeComponents it with
      | error e => simp [drainsOf, drainTarget]
      | ok comps =>
        dsimp only []
        cases hd : env.deleteComponents
            { provider := it.provider, IncludeNamespace := false,
              IncludeCRDs := false, SkipInventory := true } with
        | error e => simp [drainsOf, drainTarget]
        | ok u =>
          dsimp only []
          cases hi : env.installComponents comps with
          | error e => simp [drainsOf, drainTarget]
          | ok u2 =>
            dsimp only []
            simp only [drainsOf, List.filterMap_cons, drainTarget]
            exact drainsOf_phaseB_nil env rest

theorem deletesOf_phaseA_nil {C : Type} (env : ExecEnv C) :
    ∀ l, deletesOf (phaseA env l).2 = []
  | [] => by simp [phaseA, deletesOf]
  | it :: rest => by
    rw [phaseA]
    split
    · exact deletesOf_phaseA_nil env rest
    · cases hs : env.scaleDownProvider it.provider with
      | error e => simp [deletesOf, deleteTarget]
      | ok u =>
        simp only [deletesOf, List.filterMap_cons, deleteTarget]
        exact deletesOf_phaseA_nil env rest

theorem deletesOf_phaseB_sublist {C : Type} (env : ExecEnv C) :
    ∀ l, (deletesOf (phaseB env l).2).Sublist (l.map (fun it => it.provider))
  | [] => by simp [phaseB, deletesOf]
  | it :: rest => by
    rw [phaseB]
    split
    · exact (deletesOf_phaseB_sublist env rest).trans
        (List.sublist_cons_of_sublist it.provider (List.Sublist.refl _))
    · cases hf : env.getUpgradeComponents it with
      | error e =>
        simp only [deletesOf, List.map_cons, List.filterMap_cons, deleteTarget]
        exact List.nil_sublist _
      | ok comps =>
        dsimp only []
        cases hd : env.deleteComponents
            { provider := it.provider, IncludeNamespace := false,
              IncludeCRDs := false, SkipInventory := true } with
        | error e =>
          dsimp only []
          simp only [deletesOf, List.map_cons, List.filterMap_cons, deleteTarget]
          exact List.Sublist.cons₂ it.provider (List.nil_sublist _)
        | ok u =>
          dsimp only []
          cases hi : env.installComponents comps with
          | error e =>
            dsimp only []
            simp only [deletesOf, List.map_cons, List.filterMap_cons, deleteTarget]
            exact List.Sublist.cons₂ it.provider (List.nil_sublist _)
          | ok u2 =>
            dsimp only []
            simp only [deletesOf, List.map_cons, List.filterMap_cons, deleteTarget]
            exact List.Sublist.cons₂ it.provider (deletesOf_phaseB_sublist env rest)

theorem phaseB_delete_opts {C : Type} (env : ExecEnv C) :
    ∀ l opts, ExecAction.delete opts ∈ (phaseB env l).2 →
    opts.IncludeNamespace = false ∧ opts.IncludeCRDs = false ∧
      opts.SkipInventory = true
  | [], opts, h => absurd h (by simp [phaseB])
  | it :: rest, opts, h => by
    rw [phaseB] at h
    split at h
    · exact phaseB_delete_opts env rest opts h
    · cases hf : env.getUpgradeComponents it with
      | error e =>
        rw [hf] at h
        dsimp only [] at h
        simp at h
      | ok comps =>
        rw [hf] at h
        dsimp only [] at h
        cases hd : env.deleteComponents
            { provider := it.provider, IncludeNamespace := false,
              IncludeCRDs := false, SkipInventory := true } with
        | error e =>
          rw [hd] at h
          dsimp only [] at h
          rcases List.mem_cons.1 h with hEq | hTail
          · exact absurd hEq (by simp)
          · rcases by simpa using hTail with hEq
            rw [show opts = DeleteOptions.mk it.provider false false true from
              by simpa using hEq]
            exact ⟨rfl, rfl, rfl⟩
        | ok u =>
          rw [hd] at h
          dsimp only [] at h
          cases hi : env.installComponents comps with
          | error e =>
            rw [hi] at h
            dsimp only [] at h
            rcases List.mem_cons.1 h with hEq | hTail
            · exact absurd hEq (by simp)
            · rcases List.mem_cons.1 hTail with hEq | hTail2
              · rw [show opts = DeleteOptions.mk it.provider false false true from
                  by simpa using hEq]
                exact ⟨rfl, rfl, rfl⟩
              · simp at hTail2
          | ok u2 =>
            rw [hi] at h
            dsimp only [] at h
            rcases List.mem_cons.1 h with hEq | hTail
            · exact absurd hEq (by simp)
            · rcases List.mem_cons.1 hTail with hEq | hTail2
              · rw [show opts = DeleteOptions.mk it.provider false false true from
                  by simpa using hEq]
                exact ⟨rfl, rfl, rfl⟩
              · rcases List.mem_cons.1 hTail2 with hEq | hTail3
                · exact absurd hEq (by simp)
                · exact phaseB_delete_opts env rest opts hTail3

theorem phaseA_all_empty {C : Type} (env : ExecEnv C) :
    ∀ l, (∀ it ∈ l, it.NextVersion = "") → phaseA env l = (none, [])
  | [], _ => rfl
  | it :: rest, h => by
    rw [phaseA, if_pos (by simp [h it (List.mem_cons_self it rest)])]
    exact phaseA_all_empty env rest (fun u hu => h u (List.mem_cons_of_mem it hu))

theorem phaseB_all_empty {C : Type} (env : ExecEnv C) :
    ∀ l, (∀ it ∈ l, it.NextVersion = "") → phaseB env l = (none, [])
  | [], _ => rfl
  | it :: rest, h => by
    rw [phaseB, if_pos (by simp [h it (List.mem_cons_self it rest)])]
    exact phaseB_all_empty env rest (fun u hu => h u (List.mem_cons_of_mem it hu))

/-- C5: on a plan whose contract equals the guarded contract value, when
the inventory's single-instance check fails, `doUpgrade` returns that
error having issued only the check itself — no drain, no fetch, no delete
and no install. -/
theorem executeGuardZeroMutations {C : Type} (env : ExecEnv C) (plan : UpgradePlan)
    (e : GoErr)
    (hc : plan.Contract = clusterv1GroupVersionVersion)
    (he : env.checkSingleProviderInstance = .error e) :
    doUpgrade env plan = (some e, [ExecAction.checkSingleInstance]) := by
  have hg : guardStep env plan = (some e, [ExecAction.checkSingleInstance]) := by
    rw [guardStep, if_pos (by simp [hc]), he]
  rw [doUpgrade, hg]
  simp [seqStep]

/-- An executor environment in which every collaborator call succeeds. -/
def allOkEnv : ExecEnv Unit :=
  ⟨.ok (), fun _ => .ok (), fun _ => .ok (), fun _ => .ok (), fun _ => .ok (), .ok ()⟩

/-- An executor environment whose single-instance check fails and all
other calls succeed. -/
def checkFailEnv : ExecEnv Unit :=
  ⟨.error (.collab "multiple instances of the same provider"),
    fun _ => .ok (), fun _ => .ok (), fun _ => .ok (), fun _ => .ok (), .ok ()⟩

/-- A plan on the guarded contract with one upgradable item. -/
def planGuarded : UpgradePlan := ⟨"v1beta1", [⟨coreW, "v2.0.0"⟩]⟩

theorem executeGuardZeroMutationsWitness :
    doUpgrade checkFailEnv planGuarded
      = (some (.collab "multiple instances of the same provider"),
         [ExecAction.checkSingleInstance]) :=
  executeGuardZeroMutations checkFailEnv planGuarded
    (.collab "multiple instances of the same provider") rfl rfl

/-- A plan whose single item's next version equals the installed version
of its provider (both are the non-empty string `v1.0.0`). -/
def planSameVersion : UpgradePlan := ⟨"v1alpha4", [⟨coreW, "v1.0.0"⟩]⟩

/-- C6 counterexample: executing a plan in which every item's next version
equals the installed version is not a no-op — the executor drains the
provider and reinstalls it, since `doUpgrade` only skips items whose next
version is the empty string. -/
theorem executeSameVersionTriggersRollout :
    (planSameVersion.Providers.all
        (fun it => it.NextVersion == it.provider.version)) = true
    ∧ ExecAction.scaleDown coreW ∈ (doUpgrade allOkEnv planSameVersion).2
    ∧ ExecAction.install ⟨coreW, "v1.0.0"⟩ ∈ (doUpgrade allOkEnv planSameVersion).2 := by
  decide

/-- C6 (amended): executing a plan in which every item's next version is
the empty string — the "no change needed" marker, which is how a plan
regenerated after a completed upgrade encodes that every item is already
at the installed version — issues no drain, no fetch, no delete and no
install: every action of the trace is the single-instance check or the
webhook namespace cleanup. -/
theorem executeEmptyNextVersionIsNoop {C : Type} (env : ExecEnv C)
    (plan : UpgradePlan)
    (h : ∀ it ∈ plan.Providers, it.NextVersion = "") :
    ((doUpgrade env plan).2.all
      (fun a => a == ExecAction.checkSingleInstance
        || a == ExecAction.deleteWebhookNamespace)) = true := by
  have hs : ∀ it ∈ sortProviders plan.Providers, it.NextVersion = "" := fun it hit =>
    h it ((List.perm_insertionSort itemTypeLE plan.Providers).mem_iff.1 hit)
  have hA := phaseA_all_empty env (sortProviders plan.Providers) hs
  have hB := phaseB_all_empty env (sortProviders plan.Providers) hs
  rw [doUpgrade, hA, hB]
  rcases guardStep_trace env plan with hg | hg <;>
    rcases cleanupStep_trace env plan with hc | hc <;>
    cases hgv : guardStep env plan with
  | _ g1 g2 =>
    rw [hgv] at hg
    subst hg
    cases g1 <;> simp [seqStep, hc]

/-- Witness: on a one-item plan with an empty next version, the trace
consists only of the check and the cleanup. -/
theorem executeEmptyNextVersionIsNoopWitness :
    ((UpgradePlan.mk "v1beta1" [⟨coreW, ""⟩]).Providers.all
        (fun it => it.NextVersion == "")) = true
    ∧ ((doUpgrade allOkEnv (UpgradePlan.mk "v1beta1" [⟨coreW, ""⟩])).2.all
        (fun a => a == ExecAction.checkSingleInstance
          || a == ExecAction.deleteWebhookNamespace)) = true :=
  ⟨by decide,
    executeEmptyNextVersionIsNoop allOkEnv (UpgradePlan.mk "v1beta1" [⟨coreW, ""⟩])
      (by decide)⟩

theorem isPhaseB_not_drain (x : ExecAction) :
    isPhaseBAction x = true → isDrainAction x = false := by
  cases x <;> simp [isPhaseBAction, isDrainAction]

/-- C7: within one `doUpgrade` call the trace splits into a prefix free of
replace-phase actions followed by a suffix free of drain actions: every
drain precedes every fetch, delete and install. -/
theorem executeDrainPhasePrecedesReplacePhase {C : Type} (env : ExecEnv C)
    (plan : UpgradePlan) :
    ∃ l1 l2, (doUpgrade env plan).2 = l1 ++ l2 ∧
      (∀ x ∈ l1, isPhaseBAction x = false) ∧ ∀ x ∈ l2, isDrainAction x = false := by
  obtain ⟨g, a, b, c, htr, hg, ha, hb, hc⟩ := doUpgrade_trace env plan
  refine ⟨g ++ a, b ++ c, by rw [htr, List.append_assoc], ?_, ?_⟩
  · intro x hx
    rcases List.mem_append.1 hx with h1 | h1
    · rcases hg with hgg | hgg <;> subst hgg
      · simp at h1
      · have hx2 : x = ExecAction.checkSingleInstance := by simpa using h1
        rw [hx2]; rfl
    · rcases ha with haa | haa
      · rcases phaseA_actions env (sortProviders plan.Providers) x (haa ▸ h1) with ⟨p, hp⟩
        rw [hp]; rfl
      · subst haa; simp at h1
  · intro x hx
    rcases List.mem_append.1 hx with h1 | h1
    · rcases hb with hbb | hbb
      · exact isPhaseB_not_drain x
          (phaseB_actions env (sortProviders plan.Providers) x (hbb ▸ h1))
      · subst hbb; simp at h1
    · rcases hc with hcc | hcc <;> subst hcc
      · simp at h1
      · have hx2 : x = ExecAction.deleteWebhookNamespace := by simpa using h1
        rw [hx2]; rfl

/-- C9: every delete issued by `doUpgrade` carries options that exclude
the namespace, exclude the CRDs, and skip the inventory record. -/
theorem executeDeletePreservesCrdNamespaceInventory {C : Type} (env : ExecEnv C)
    (plan : UpgradePlan) (opts : DeleteOptions)
    (h : ExecAction.delete opts ∈ (doUpgrade env plan).2) :
    opts.IncludeNamespace = false ∧ opts.IncludeCRDs = false ∧
      opts.SkipInventory = true := by
  obtain ⟨g, a, b, c, htr, hg, ha, hb, hc⟩ := doUpgrade_trace env plan
  rw [htr] at h
  rcases List.mem_append.1 h with h1 | h1
  · rcases hg with hgg | hgg <;> subst hgg
    · simp at h1
    · simp at h1
  · rcases List.mem_append.1 h1 with h2 | h2
    · rcases ha with haa | haa
      · rcases phaseA_actions env (sortProviders plan.Providers) _ (haa ▸ h2) with ⟨p, hp⟩
        exact absurd hp (by simp)
      · subst haa; simp at h2
    · rcases List.mem_append.1 h2 with h3 | h3
      · rcases hb with hbb | hbb
        · exact phaseB_delete_opts env (sortProviders plan.Providers) opts (hbb ▸ h3)
        · subst hbb; simp at h3
      · rcases hc with hcc | hcc <;> subst hcc
        · simp at h3
        · simp at h3

theorem executeDeletePreservesCrdNamespaceInventoryWitness :
    (DeleteOptions.mk coreW false false true).IncludeNamespace = false ∧
    (DeleteOptions.mk coreW false false true).IncludeCRDs = false ∧
    (DeleteOptions.mk coreW false false true).SkipInventory = true :=
  executeDeletePreservesCrdNamespaceInventory allOkEnv planGuarded
    (DeleteOptions.mk coreW false false true) (by decide)

theorem drainsOf_append (x y : List ExecAction) :
    drainsOf (x ++ y) = drainsOf x ++ drainsOf y :=
  List.filterMap_append x y drainTarget

theorem deletesOf_append (x y : List ExecAction) :
    deletesOf (x ++ y) = deletesOf x ++ deletesOf y :=
  List.filterMap_append x y deleteTarget

/-- C10: whatever order the caller supplied the plan's items in, the
providers drained by `doUpgrade`, and likewise the providers whose
components it deletes, appear in non-decreasing provider-type precedence
(Core, Bootstrap, ControlPlane, Infrastructure), because the item slice is
sorted by the type order before either phase runs. -/
theorem executeItemsInTypePrecedenceOrder {C : Type} (env : ExecEnv C)
    (plan : UpgradePlan) :
    (drainsOf (doUpgrade env plan).2).Pairwise
        (fun p q => p.pType.Order ≤ q.pType.Order)
    ∧ (deletesOf (doUpgrade env plan).2).Pairwise
        (fun p q => p.pType.Order ≤ q.pType.Order) := by
  obtain ⟨g, a, b, c, htr, hg, ha, hb, hc⟩ := doUpgrade_trace env plan
  have hsorted : ((sortProviders plan.Providers).map (fun it => it.provider)).Pairwise
      (fun p q => p.pType.Order ≤ q.pType.Order) := by
    rw [List.pairwise_map]
    exact (List.sorted_insertionSort itemTypeLE plan.Providers).imp (fun h => h)
  have hgD : drainsOf g = [] := by
    rcases hg with h | h <;> simp [h, drainsOf, drainTarget]
  have hcD : drainsOf c = [] := by
    rcases hc with h | h <;> simp [h, drainsOf, drainTarget]
  have hbD : drainsOf b = [] := by
    rcases hb with h | h
    · rw [h]; exact drainsOf_phaseB_nil env (sortProviders plan.Providers)
    · simp [h, drainsOf]
  have haD : (drainsOf a).Sublist
      ((sortProviders plan.Providers).map (fun it => it.provider)) := by
    rcases ha with h | h
    · rw [h]; exact drainsOf_phaseA_sublist env (sortProviders plan.Providers)
    · rw [h]; exact List.nil_sublist _
  have hgE : deletesOf g = [] := by
    rcases hg with h | h <;> simp [h, deletesOf, deleteTarget]
  have hcE : deletesOf c = [] := by
    rcases hc with h | h <;> simp [h, deletesOf, deleteTarget]
  have haE : deletesOf a = [] := by
    rcases ha with h | h
    · rw [h]; exact deletesOf_phaseA_nil env (sortProviders plan.Providers)
    · simp [h, deletesOf]
  have hbE : (deletesOf b).Sublist
      ((sortProviders plan.Providers).map (fun it => it.provider)) := by
    rcases hb with h | h
    · rw [h]; exact deletesOf_phaseB_sublist env (sortProviders plan.Providers)
    · rw [h]; exact List.nil_sublist _
  constructor
  · rw [htr, drainsOf_append, drainsOf_append, drainsOf_append, hgD, hbD, hcD]
    simp only [List.nil_append, List.append_nil]
    exact List.Pairwise.sublist haD hsorted
  · rw [htr, deletesOf_append, deletesOf_append, deletesOf_append, hgE, haE, hcE]
    simp only [List.nil_append, List.append_nil]
    exact List.Pairwise.sublist hbE hsorted
